import Mathlib

/-
Verification development for the HDFSClient library
(`hdfs_client/hdfs_client.py`, `hdfs_client/request_wrapper.py`,
`hdfs_client/exceptions.py`).

The Python source is shallowly embedded below.  Effectful pieces (the HTTP
transport, the local filesystem, the wall clock, the interpreter call stack)
are made explicit parameters: a run of a retry wrapper is driven by a sequence
of attempt outcomes, a transfer is driven by the outcome of each remote
operation, and the remote/local stores are finite association lists from
paths to entries.  Each definition's doc comment names the Python symbol it
embeds.
-/

/-! ## Retry executor (`request_wrapper.py`) -/

/-- Source constant `DEFAULT_ERROR_BOUNDARY = 3` (`request_wrapper.py`). -/
def DEFAULT_ERROR_BOUNDARY : Nat := 3

/-- Python values that flow through `RetryAction`: the sentinel
`ResultValue.NOTHING` (the integer 1 in the source), booleans, and `None`.
`RetryAction` compares the wrapped call's result against the configured
default with `==` and tests `default is ResultValue.NOTHING` on exhaustion;
on this enumeration both tests are constructor equality. -/
inductive RVal where
| NOTHING
| vbool (b : Bool)
| vnone
deriving DecidableEq, Repr

/-- Outcome of one invocation of the wrapped function inside
`RetryAction.__call__`: it returns a value, raises an exception belonging to
the declared retryable set (`self._exceptions`), or raises an exception
outside that set.  Exceptions are carried as their message string. -/
inductive Attempt where
| ret (v : RVal)
| exnR (e : String)
| exnN (e : String)
deriving DecidableEq, Repr

/-- Result of a whole `RetryAction.__call__` run: the call either returns a
value or raises. -/
inductive RunResult where
| returned (v : RVal)
| raised (e : String)
deriving DecidableEq, Repr

/-- Observable trace of one `RetryAction.__call__` run: the final result, the
number of invocations of the wrapped function, and the `is_final` flags passed
to `error_trigger`, one per invocation of `_error_handle`, in order. -/
structure RunTrace where
  result : RunResult
  calls : Nat
  triggers : List Bool
deriving DecidableEq, Repr

/-- The `while` loop of `RetryAction.__call__` (`request_wrapper.py` lines
21-36).  `a i` is the outcome of the `i`-th invocation of the wrapped
function, `count` is `self._error_count`, and `fuel` bounds the remaining
iterations (each iteration either returns or increments `count`, so
`boundary` units of fuel make the model exact for runs started at
`count = 0`).  On a result equal to the default and on a retryable exception,
`_error_handle` increments the count and calls the trigger with
`is_final = (count >= boundary)`; a retryable exception observed when the
incremented count reaches the boundary is re-raised exactly when the default
is the sentinel `ResultValue.NOTHING`; a non-retryable exception propagates
immediately; when the loop condition fails the default is returned. -/
def retryActionLoop (a : Nat → Attempt) (boundary : Nat) (dflt : RVal) :
    Nat → Nat → RunTrace
| 0, _ => ⟨RunResult.returned dflt, 0, []⟩
| fuel + 1, count =>
  if boundary ≤ count then ⟨RunResult.returned dflt, 0, []⟩
  else
    match a count with
    | Attempt.ret v =>
      if v = dflt then
        let t := retryActionLoop a boundary dflt fuel (count + 1)
        ⟨t.result, t.calls + 1, decide (boundary ≤ count + 1) :: t.triggers⟩
      else ⟨RunResult.returned v, 1, []⟩
    | Attempt.exnR e =>
      if boundary ≤ count + 1 ∧ dflt = RVal.NOTHING then
        ⟨RunResult.raised e, 1, [decide (boundary ≤ count + 1)]⟩
      else
        let t := retryActionLoop a boundary dflt fuel (count + 1)
        ⟨t.result, t.calls + 1, decide (boundary ≤ count + 1) :: t.triggers⟩
    | Attempt.exnN e => ⟨RunResult.raised e, 1, []⟩

/-- A complete `RetryAction.__call__` run: the wrapper object is created fresh
by the `retry_request` decorator for every call, so `_error_count` starts
at 0. -/
def retryActionCall (a : Nat → Attempt) (boundary : Nat) (dflt : RVal) : RunTrace :=
  retryActionLoop a boundary dflt boundary 0

/-- An attempt outcome counts as a failed attempt for `RetryAction` when it
raises a retryable exception or returns the configured default value. -/
def isFailing (dflt : RVal) : Attempt → Bool
| Attempt.ret v => decide (v = dflt)
| Attempt.exnR _ => true
| Attempt.exnN _ => false

/-- Number of failing outcomes among attempts `start, ..., start + n - 1`. -/
def countFailing (a : Nat → Attempt) (dflt : RVal) : Nat → Nat → Nat
| _, 0 => 0
| start, n + 1 =>
  (if isFailing dflt (a start) then 1 else 0) + countFailing a dflt (start + 1) n

/-! ## Simple remote operations (`hdfs_client.py`: `makedirs`, `rename`,
`delete` via `_send_simple_request`) -/

/-- Outcome of one HTTP exchange as seen by `_send_simple_request`: either the
transport raised (a `RequestException`, retryable for these operations) or a
response was completed, of which only `response.ok` is inspected. -/
inductive SimpleRequestOutcome where
| transportError (msg : String)
| response (ok : Bool)
deriving DecidableEq, Repr

/-- What one attempt of `makedirs` (equally `rename` / `delete`) produces for
its `RetryAction` wrapper: `_send_simple_request` returns `response.ok`, and a
transport error surfaces as a retryable exception
(`@retry_request(RequestException, False)`, `hdfs_client.py` lines 106-128). -/
def makedirs_attempt : SimpleRequestOutcome → Attempt
| SimpleRequestOutcome.transportError m => Attempt.exnR m
| SimpleRequestOutcome.response ok => Attempt.ret (RVal.vbool ok)

/-- A full retry-wrapped `makedirs` call, driven by the outcome of each HTTP
exchange; the configured default (and hence sentinel) is `False`. -/
def makedirs_call (rs : Nat → SimpleRequestOutcome) : RunTrace :=
  retryActionCall (fun i => makedirs_attempt (rs i)) 3 (RVal.vbool false)

/-! ## Status query (`HDFSClient._get_remote_data_type`) -/

/-- Outcome of the `GETFILESTATUS` HTTP exchange issued by
`_get_remote_data_type`: the transport may raise, or a response completes
with `response.ok` and (when parsed) the reported `FileStatus` type. -/
inductive StatusQueryOutcome where
| transportError (msg : String)
| response (ok : Bool) (dtype : String)
deriving DecidableEq, Repr

/-- `HDFSClient._get_remote_data_type` (`hdfs_client.py` lines 147-158).  The
method carries no `@retry_request` decorator and no `try`/`except`: a
completed non-ok response yields `None` (absent), a completed ok response
yields the reported type, and a transport exception propagates to the
caller. -/
def get_remote_data_type : StatusQueryOutcome → Except String (Option String)
| StatusQueryOutcome.transportError m => Except.error m
| StatusQueryOutcome.response true t => Except.ok (some t)
| StatusQueryOutcome.response false _ => Except.ok none

/-! ## Namenode registry (`HDFSClient._refresh_active_namenode`,
`_format_namenode`, `_send_request`) -/

/-- Source namedtuple `NameNode = namedtuple('NameNode', ['host', 'port'])`. -/
structure NameNode where
  host : String
  port : Nat
deriving DecidableEq, Repr

instance : Inhabited NameNode := ⟨⟨"", 0⟩⟩

/-- The mutable registry state of `HDFSClient`: `self._nns`,
`self._active_namenode`, `self._last_refresh_ts`. -/
structure ClientState where
  nns : List NameNode
  active_namenode : NameNode
  last_refresh_ts : Nat
deriving DecidableEq, Repr

/-- The candidate scan of `_refresh_active_namenode`: each element of
`statuses` is, for the namenode at the same index of `self._nns`, the pair
(response succeeded, body contains the active marker); the first index whose
query succeeds with an active body wins. -/
def findActiveIndex (statuses : List (Bool × Bool)) : Option Nat :=
  statuses.findIdx? (fun s => s.1 && s.2)

/-- Body of `_refresh_active_namenode` (`hdfs_client.py` lines 77-95) for a
round of completed status queries: no active candidate raises
`ActiveNamenodeNotFoundException` (modelled as `none`) leaving the state
untouched; otherwise, if the active candidate is at index 1 the candidate
list is reversed in place, the node at position 0 becomes the active node,
and the refresh timestamp is recorded. -/
def refresh_active_namenode_body (st : ClientState) (statuses : List (Bool × Bool))
    (now : Nat) : Option ClientState :=
  match findActiveIndex statuses with
  | none => none
  | some i =>
    let nns' := if i = 1 then st.nns.reverse else st.nns
    some ⟨nns', nns'.headI, now⟩

/-- `HDFSClient._format_namenode` (`hdfs_client.py` lines 97-99): instantiate
the WebHDFS url template `http://{host}:{port}/webhdfs/v1/...` with the
cached `self._active_namenode`.  It reads no clock and consults no
timestamp. -/
def format_namenode (st : ClientState) (pathAndQuery : String) : String :=
  "http://" ++ st.active_namenode.host ++ ":" ++ toString st.active_namenode.port
    ++ "/webhdfs/v1/" ++ pathAndQuery

/-- Externally visible effects of a client operation, for tracking when
discovery happens: a namenode status query (only ever issued by
`_refresh_active_namenode`) or an HTTP request against the formatted url. -/
inductive ClientEvent where
| statusQuery (nn : NameNode)
| httpRequest (requestUrl : String)
deriving DecidableEq, Repr

/-- Effects of `HDFSClient._send_request` (`hdfs_client.py` lines 101-104),
the path every remote operation takes to resolve the active node: format the
url with the cached active namenode and send exactly that one request.  No
status query, no state change, no reading of `last_refresh_ts`. -/
def send_request_events (st : ClientState) (pathAndQuery : String) : List ClientEvent :=
  [ClientEvent.httpRequest (format_namenode st pathAndQuery)]

/-- Concrete namenode used in witnesses. -/
def nnA : NameNode := ⟨"nn1", 50070⟩

/-- Second concrete namenode used in witnesses. -/
def nnB : NameNode := ⟨"nn2", 50070⟩

/-- Concrete two-candidate registry state. -/
def stTwoNodes : ClientState := ⟨[nnA, nnB], nnA, 1000⟩

/-- Concrete registry state whose last refresh timestamp is 0, i.e.
arbitrarily stale relative to any later clock reading. -/
def stStale : ClientState := ⟨[nnA, nnB], nnA, 0⟩

/-! ## The failure-callback recursion
(`HDFSClient.request_error_trigger` + `_refresh_active_namenode`) -/

/-- Result of a (depth-limited) run of the retry-wrapped
`_refresh_active_namenode`. -/
inductive RefreshExecResult where
| returned
| raised (e : String)
| stackExhausted
deriving DecidableEq, Repr

/-- Execution of the retry-wrapped `_refresh_active_namenode` under an
environment in which every namenode status query raises a transport error
(`requests.get` raises a `RequestException`; the body performs one query and
the exception propagates out of the candidate loop).  `depth` is the
remaining interpreter stack budget and `count` is the wrapper's
`_error_count`.  Each failed attempt increments the count; a non-final
failure invokes `request_error_trigger(err, is_final=False)` (`hdfs_client.py`
lines 68-74), which synchronously calls `self._refresh_active_namenode()` —
the decorated method, hence a fresh `RetryAction` with a fresh count, one
stack level deeper.  The final (third) failure logs and re-raises, since the
configured default is the sentinel.  Exhausted depth models the interpreter's
`RecursionError`; an exception escaping the nested trigger call propagates
out of the enclosing `except` block uncaught.  The pair returned is the
result together with the total number of status queries issued. -/
def refresh_loop_under_query_failure : Nat → Nat → RefreshExecResult × Nat
| depth, count =>
  if 3 ≤ count then (RefreshExecResult.returned, 0)
  else if 2 ≤ count then (RefreshExecResult.raised "RequestException", 1)
  else
    match depth with
    | 0 => (RefreshExecResult.stackExhausted, 1)
    | d + 1 =>
      match refresh_loop_under_query_failure d 0 with
      | (RefreshExecResult.returned, q) =>
        let t := refresh_loop_under_query_failure (d + 1) (count + 1)
        (t.1, 1 + q + t.2)
      | (RefreshExecResult.raised e, q) => (RefreshExecResult.raised e, 1 + q)
      | (RefreshExecResult.stackExhausted, q) => (RefreshExecResult.stackExhausted, 1 + q)
termination_by depth count => (depth, 3 - count)
decreasing_by
· apply Prod.Lex.left
  omega
· apply Prod.Lex.right
  omega

/-- Execution of the retry-wrapped `_refresh_active_namenode` under an
environment in which every namenode status query COMPLETES: `env i` tells
whether the `i`-th invocation of the discovery body (counted globally across
re-entrant calls) finds an active candidate.  A body invocation that finds
one returns `None` (a success for the wrapper, since `None` differs from the
sentinel default); one that finds none raises
`ActiveNamenodeNotFoundException`, which IS in the wrapper's retryable set.
On a non-final failure `_error_handle` invokes `request_error_trigger(err,
is_final=False)`, which synchronously calls `self._refresh_active_namenode()`
— the decorated method, hence a fresh `RetryAction` with a fresh error count,
one interpreter stack level deeper (`depth` is the remaining stack budget;
depth 0 models the `RecursionError` thrown on re-entry).  An exception
escaping that nested call propagates out of the enclosing `except` block
uncaught.  On the third failure of one wrapper the trigger only logs
(`is_final=True`) and, the default being the sentinel, the error is
re-raised.  The wrapper's `while` loop runs at most three body invocations,
unrolled here literally; the second component returned is the index after the
last body invocation, so a call started at `k = 0` reports the total number
of discovery rounds performed. -/
def refresh_call_anf (env : Nat → Bool) : Nat → Nat → RefreshExecResult × Nat
| 0, k =>
  if env k then (RefreshExecResult.returned, k + 1)
  else (RefreshExecResult.stackExhausted, k + 1)
| d + 1, k =>
  if env k then (RefreshExecResult.returned, k + 1)
  else
    match refresh_call_anf env d (k + 1) with
    | (RefreshExecResult.returned, k1) =>
      if env k1 then (RefreshExecResult.returned, k1 + 1)
      else
        match refresh_call_anf env d (k1 + 1) with
        | (RefreshExecResult.returned, k2) =>
          if env k2 then (RefreshExecResult.returned, k2 + 1)
          else (RefreshExecResult.raised "ActiveNamenodeNotFoundException", k2 + 1)
        | (RefreshExecResult.raised e, k2) => (RefreshExecResult.raised e, k2)
        | (RefreshExecResult.stackExhausted, k2) => (RefreshExecResult.stackExhausted, k2)
    | (RefreshExecResult.raised e, k1) => (RefreshExecResult.raised e, k1)
    | (RefreshExecResult.stackExhausted, k1) => (RefreshExecResult.stackExhausted, k1)

/-! ## Staged download commit/rollback (`HDFSClient._download_by_tmp_data`) -/

/-- Content of a local path in the commit/rollback model: the data already at
the target before the call, the fully staged transfer result, or the partial
residue of a failed transfer. -/
inductive LocalContent where
| oldData
| stagedData
| partialData
deriving DecidableEq, Repr

/-- A local filesystem fragment as an association list from paths to
contents. -/
abbrev LocalFs := List (String × LocalContent)

/-- Remove a path (models `_check_and_remove_local_data` / `os.remove` /
`shutil.rmtree`). -/
def eraseFs (fs : LocalFs) (p : String) : LocalFs :=
  fs.filter (fun kv => kv.1 != p)

/-- Bind a path to a content, replacing any previous binding. -/
def insertFs (fs : LocalFs) (p : String) (c : LocalContent) : LocalFs :=
  eraseFs fs p ++ [(p, c)]

/-- Result of `_download_by_tmp_data`: a normal return carrying `is_success`,
or an `AttributeError` escaping the call. -/
inductive DownloadOutcome where
| finished (success : Bool) (fs : LocalFs)
| attributeError (fs : LocalFs)
deriving DecidableEq, Repr

/-- `HDFSClient._download_by_tmp_data` (`hdfs_client.py` lines 241-252).
`downloadOk` is the outcome of `_download_data` into the staging path (a
failed transfer is modelled as leaving partial residue there, the worst
case).  On success the prior target is removed
(`_check_and_remove_local_data`) and `os.rename` moves the staging path onto
the target.  On failure the source calls `self._check_and_remove_data`, a
method that does not exist on `HDFSClient` (the class defines only
`_check_and_remove_local_data` and `_check_and_remove_remote_data`), so
attribute lookup raises `AttributeError` before any cleanup happens and the
staging path stays behind. -/
def download_by_tmp_data (downloadOk : Bool) (fs : LocalFs)
    (localPath tmpPath : String) : DownloadOutcome :=
  if downloadOk then
    let fs1 := insertFs fs tmpPath LocalContent.stagedData
    let fs2 := eraseFs fs1 localPath
    DownloadOutcome.finished true (insertFs (eraseFs fs2 tmpPath) localPath LocalContent.stagedData)
  else
    DownloadOutcome.attributeError (insertFs fs tmpPath LocalContent.partialData)

/-! ## Directory trees and the transfer engines
(`HDFSClient._upload_directory`, `_upload_file`, `_download_directory`,
`_download_file`) -/

mutual

/-- A filesystem tree: a file with its byte content, or a directory with a
forest of named children. -/
inductive FsTree where
| file (content : List Nat)
| dir (children : FsForest)

/-- Ordered list of named children of a directory. -/
inductive FsForest where
| nil
| cons (name : String) (tree : FsTree) (rest : FsForest)

end

/-- A path relative to a transfer root, as a list of components. -/
abbrev FPath := List String

/-- A directory entry in a path-keyed store: a directory marker or a file
with its content.  Mirrors `DataType.FILE` / `DataType.DIRECTORY`. -/
inductive Entry where
| dir
| file (content : List Nat)
deriving DecidableEq, Repr

/-- The entry a tree itself presents (its `GETFILESTATUS` type). -/
def topEntry : FsTree → Entry
| FsTree.file b => Entry.file b
| FsTree.dir _ => Entry.dir

/-- The children of a forest as a plain list of (name, subtree) pairs. -/
def childList : FsForest → List (String × FsTree)
| FsForest.nil => []
| FsForest.cons n t rest => (n, t) :: childList rest

/-- The children of a forest as (name, entry) pairs — what a `LISTSTATUS` of
the directory reports, with each listed file's content attached (obtained by
the `OPEN` request `_download_file` issues per listed file). -/
def topPairs (cs : FsForest) : List (String × Entry) :=
  (childList cs).map (fun nt => (nt.1, topEntry nt.2))

/-- All entries of a forest sitting below path `p`, each child in order
followed by its own descendants (the canonical path-keyed contents of the
tree). -/
def entriesF : FPath → FsForest → List (FPath × Entry)
| _, FsForest.nil => []
| p, FsForest.cons n (FsTree.file b) rest => (p ++ [n], Entry.file b) :: entriesF p rest
| p, FsForest.cons n (FsTree.dir cs) rest =>
    (p ++ [n], Entry.dir) :: (entriesF (p ++ [n]) cs ++ entriesF p rest)

/-- All entries of a tree rooted at path `p`, the root entry first. -/
def entriesT (p : FPath) : FsTree → List (FPath × Entry)
| FsTree.file b => [(p, Entry.file b)]
| FsTree.dir cs => (p, Entry.dir) :: entriesF p cs

/-- Find the subtree of a forest with the given name. -/
def findChild : FsForest → String → Option FsTree
| FsForest.nil, _ => none
| FsForest.cons n t rest, m => if n = m then some t else findChild rest m

/-- Resolve a relative path inside a tree. -/
def lookupTree : FPath → FsTree → Option FsTree
| [], t => some t
| _ :: _, FsTree.file _ => none
| n :: rest, FsTree.dir cs =>
  match findChild cs n with
  | some c => lookupTree rest c
  | none => none

/-- Number of directories in a forest (subdirectories at any depth). -/
def dirCountF : FsForest → Nat
| FsForest.nil => 0
| FsForest.cons _ (FsTree.file _) rest => dirCountF rest
| FsForest.cons _ (FsTree.dir cs) rest => 1 + dirCountF cs + dirCountF rest

/-- Number of directories in a tree, the root included when it is one. -/
def dirCount : FsTree → Nat
| FsTree.file _ => 0
| FsTree.dir cs => 1 + dirCountF cs

/-- Whether a forest has a child of the given name. -/
def hasName : FsForest → String → Bool
| FsForest.nil, _ => false
| FsForest.cons n _ rest, m => n == m || hasName rest m

/-- Well-formedness of a forest as a real directory listing: sibling names
are pairwise distinct and non-empty, recursively. -/
def wfF : FsForest → Bool
| FsForest.nil => true
| FsForest.cons n (FsTree.file _) rest => (n != "") && !hasName rest n && wfF rest
| FsForest.cons n (FsTree.dir cs) rest => (n != "") && !hasName rest n && wfF cs && wfF rest

/-- Well-formedness of a tree. -/
def wfT : FsTree → Bool
| FsTree.file _ => true
| FsTree.dir cs => wfF cs

/-- The `makedirs` calls `_upload_directory` issues for one `os.walk` yield:
one per sub-directory of the directory being visited, in listing order
(`hdfs_client.py` lines 209-210). -/
def mkdirEntries : FPath → FsForest → List (FPath × Entry)
| _, FsForest.nil => []
| p, FsForest.cons _ (FsTree.file _) rest => mkdirEntries p rest
| p, FsForest.cons n (FsTree.dir _) rest => (p ++ [n], Entry.dir) :: mkdirEntries p rest

/-- The `_upload_file` calls `_upload_directory` issues for one `os.walk`
yield: one per file of the directory being visited, in listing order
(`hdfs_client.py` lines 211-212). -/
def fileEntries : FPath → FsForest → List (FPath × Entry)
| _, FsForest.nil => []
| p, FsForest.cons n (FsTree.file b) rest => (p ++ [n], Entry.file b) :: fileEntries p rest
| p, FsForest.cons _ (FsTree.dir _) rest => fileEntries p rest

/-- The remaining `os.walk` yields after the root: `os.walk` is top-down, so
after visiting a directory it recurses into each sub-directory in listing
order, at each one creating that directory's sub-directories and uploading
its files. -/
def walkRec : FPath → FsForest → List (FPath × Entry)
| _, FsForest.nil => []
| p, FsForest.cons _ (FsTree.file _) rest => walkRec p rest
| p, FsForest.cons n (FsTree.dir cs) rest =>
    (mkdirEntries (p ++ [n]) cs ++ fileEntries (p ++ [n]) cs ++ walkRec (p ++ [n]) cs)
      ++ walkRec p rest

/-- `HDFSClient._upload_directory` (`hdfs_client.py` lines 202-213) with
every remote operation succeeding: the entries created in the remote store,
in creation order — `self.makedirs(remote_path)` for the root first, then the
`os.walk` of the local tree. -/
def upload_directory (cs : FsForest) : List (FPath × Entry) :=
  ([], Entry.dir) :: (mkdirEntries [] cs ++ fileEntries [] cs ++ walkRec [] cs)

/-- `HDFSClient._upload_data` (`hdfs_client.py` lines 193-200): dispatch on
the local data type — a single `_upload_file` for a file, `_upload_directory`
for a directory.  Paths are relative to the transfer target. -/
def upload_data : FsTree → List (FPath × Entry)
| FsTree.file b => [([], Entry.file b)]
| FsTree.dir cs => upload_directory cs

/-- The name under which `q` is a direct child of directory path `p`
(`q = p ++ [n]`), if any; this is the `pathSuffix` a `LISTSTATUS` of `p`
reports for that entry. -/
def childNameOf (p q : FPath) : Option String :=
  match q.drop p.length with
  | [n] => if q.take p.length = p then some n else none
  | _ => none

/-- The `LISTSTATUS` listing of directory path `p` against a path-keyed
store: the (pathSuffix, entry) pairs of the store's direct children of `p`. -/
def children_of (m : List (FPath × Entry)) (p : FPath) : List (String × Entry) :=
  m.filterMap (fun qe => (childNameOf p qe.1).map (fun n => (n, qe.2)))

/-- Whether an entry is a file. -/
def isFileEntry : Entry → Bool
| Entry.dir => false
| Entry.file _ => true

/-- Listing filter for sub-directories: `listdir` keeps entries of type
`DIRECTORY` whose `pathSuffix` is non-empty (`hdfs_client.py` line 139). -/
def dirPred (ne : String × Entry) : Bool :=
  ne.2 == Entry.dir && ne.1 != ""

/-- Listing filter for files: entries of type `FILE` with non-empty
`pathSuffix` (`hdfs_client.py` line 140). -/
def filePred (ne : String × Entry) : Bool :=
  isFileEntry ne.2 && ne.1 != ""

/-- `HDFSClient._download_directory` (`hdfs_client.py` lines 263-278) with
every remote operation succeeding, run against the path-keyed store `m`: an
explicit work queue `dir_queue` of relative directory paths, seeded with
`['']`.  Each iteration pops the queue head, creates the local mirror
directory (`os.makedirs`, recorded as a `dir` entry), lists the remote
directory, appends each listed sub-directory to the queue tail, and downloads
each listed file.  `fuel` bounds the number of iterations so the model is
total; the correctness theorem exhibits sufficient fuel. -/
def download_directory (m : List (FPath × Entry)) :
    Nat → List FPath → List (FPath × Entry) → Option (List (FPath × Entry))
| _, [], acc => some acc
| 0, _ :: _, _ => none
| fuel + 1, p :: queue, acc =>
  let cs := children_of m p
  let ds := cs.filter dirPred
  let fls := cs.filter filePred
  download_directory m fuel (queue ++ ds.map (fun ne => p ++ [ne.1]))
    (acc ++ (p, Entry.dir) :: fls.map (fun ne => (p ++ [ne.1], ne.2)))

/-- `HDFSClient._download_data` (`hdfs_client.py` lines 254-261) with every
remote operation succeeding: dispatch on the remote root's
`GETFILESTATUS` type — a single `_download_file` for a file,
`_download_directory` for a directory, failure when the root is absent. -/
def download_data (m : List (FPath × Entry)) (fuel : Nat) :
    Option (List (FPath × Entry)) :=
  match (m.find? (fun qe => qe.1 == ([] : FPath))).map (fun qe => qe.2) with
  | some (Entry.file b) => some [([], Entry.file b)]
  | some Entry.dir => download_directory m fuel [[]] []
  | none => none

/-- Entries of the subtree of `t` at path `p`, or nothing when `p` does not
resolve. -/
def entriesAt (t : FsTree) (p : FPath) : List (FPath × Entry) :=
  match lookupTree p t with
  | some s => entriesT p s
  | none => []

/-- Whether path `p` resolves to a directory inside `t`. -/
def isDirAt (t : FsTree) (p : FPath) : Bool :=
  match lookupTree p t with
  | some (FsTree.dir _) => true
  | _ => false

/-- Directory count of the subtree at `p`, or 0 when `p` does not resolve. -/
def dirCountAt (t : FsTree) (p : FPath) : Nat :=
  match lookupTree p t with
  | some s => dirCount s
  | none => 0

/-- The dir entries of a transfer result, in creation order: the order in
which `_download_directory` materialized directories. -/
def dirEntriesOf (l : List (FPath × Entry)) : List (FPath × Entry) :=
  l.filter (fun pe => pe.2 == Entry.dir)

/-- The local tree `{a/, a/x.txt, a/b/y.txt}` used as a witness input. -/
def sampleTree : FsTree :=
  FsTree.dir (FsForest.cons "a"
    (FsTree.dir (FsForest.cons "x.txt" (FsTree.file [104, 105])
      (FsForest.cons "b"
        (FsTree.dir (FsForest.cons "y.txt" (FsTree.file [119, 120]) FsForest.nil))
        FsForest.nil)))
    FsForest.nil)

/-! ## Theorems -/

/-- Helper: a failing attempt is a sentinel-valued return or a retryable
exception. -/
theorem isFailing_cases (dflt : RVal) (x : Attempt) (hx : isFailing dflt x = true) :
    x = Attempt.ret dflt ∨ ∃ e, x = Attempt.exnR e := by
  cases x with
  | ret v =>
    left
    have : v = dflt := by simpa [isFailing] using hx
    rw [this]
  | exnR e => right; exact ⟨e, rfl⟩
  | exnN e => simp [isFailing] at hx

/-- Counterexample to claim C3: a `RetryAction` whose configured default is
the sentinel `ResultValue.NOTHING`, driven by three attempts that each fail
by returning the sentinel, exhausts its ceiling and RETURNS the sentinel
instead of raising: the re-raise in `RetryAction.__call__` sits inside the
`except` branch only, so a final failing attempt that returns the sentinel
falls out of the loop into `return self._default_return_value`. -/
theorem retry_sentinel_exhaustion_returns_sentinel :
    retryActionCall (fun _ => Attempt.ret RVal.NOTHING) 3 RVal.NOTHING
      = ⟨RunResult.returned RVal.NOTHING, 3, [false, false, true]⟩ := by decide

/-- Claim C3 (amended): for a retry-wrapped operation whose configured
fallback equals the sentinel, exhaustion of the attempt ceiling re-raises the
last observed error provided the final failing attempt raised a retryable
error (earlier failing attempts may have failed either way); when the final
failing attempt instead returns the sentinel, the sentinel itself is
returned. -/
theorem retry_sentinel_reraise_on_final_exception (a : Nat → Attempt) (e : String)
    (h0 : isFailing RVal.NOTHING (a 0) = true)
    (h1 : isFailing RVal.NOTHING (a 1) = true)
    (h2 : a 2 = Attempt.exnR e) :
    (retryActionCall a 3 RVal.NOTHING).result = RunResult.raised e := by
  rcases isFailing_cases RVal.NOTHING (a 0) h0 with ha0 | ⟨e0, ha0⟩ <;>
    rcases isFailing_cases RVal.NOTHING (a 1) h1 with ha1 | ⟨e1, ha1⟩ <;>
      simp [retryActionCall, retryActionLoop, ha0, ha1, h2]

/-- Witness for the amended claim C3 at a concrete attempt sequence: two
sentinel-returning failures followed by a raised retryable error. -/
theorem retry_sentinel_reraise_on_final_exception_witness :
    isFailing RVal.NOTHING
        ((fun i => if i = 2 then Attempt.exnR "boom" else Attempt.ret RVal.NOTHING) 0) = true ∧
    isFailing RVal.NOTHING
        ((fun i => if i = 2 then Attempt.exnR "boom" else Attempt.ret RVal.NOTHING) 1) = true ∧
    (fun i => if i = 2 then Attempt.exnR "boom" else Attempt.ret RVal.NOTHING) 2
        = Attempt.exnR "boom" ∧
    (retryActionCall
        (fun i => if i = 2 then Attempt.exnR "boom" else Attempt.ret RVal.NOTHING)
        3 RVal.NOTHING).result = RunResult.raised "boom" :=
  ⟨by decide, by decide, by decide,
   retry_sentinel_reraise_on_final_exception
     (fun i => if i = 2 then Attempt.exnR "boom" else Attempt.ret RVal.NOTHING) "boom"
     (by decide) (by decide) (by decide)⟩

/-- Helper: full behaviour of the `RetryAction` loop — the wrapped operation
is invoked at most `fuel` times, the trigger fires once per failing attempt,
and the `i`-th trigger carries `is_final = (boundary ≤ count + i + 1)`. -/
theorem retryActionLoop_spec (a : Nat → Attempt) (b : Nat) (dflt : RVal) :
    ∀ fuel count,
      (retryActionLoop a b dflt fuel count).calls ≤ fuel ∧
      (retryActionLoop a b dflt fuel count).triggers.length
        ≤ (retryActionLoop a b dflt fuel count).calls ∧
      (retryActionLoop a b dflt fuel count).triggers.length
        = countFailing a dflt count (retryActionLoop a b dflt fuel count).calls ∧
      ∀ i, i < (retryActionLoop a b dflt fuel count).triggers.length →
        (retryActionLoop a b dflt fuel count).triggers.getD i false
          = decide (b ≤ count + i + 1) := by
  intro fuel
  induction fuel with
  | zero =>
    intro count
    simp [retryActionLoop, countFailing]
  | succ n ih =>
    intro count
    by_cases hb : b ≤ count
    · simp [retryActionLoop, hb, countFailing]
    · rcases ha : a count with v | e | e
      · by_cases hv : v = dflt
        · obtain ⟨ih1, ih2, ih3, ih4⟩ := ih (count + 1)
          simp only [retryActionLoop, if_neg hb, ha, if_pos hv, List.length_cons,
            List.getD_cons_zero, List.getD_cons_succ]
          refine ⟨by omega, by omega, ?_, ?_⟩
          · simp [countFailing, isFailing, ha, hv]
            omega
          · intro i hi
            cases i with
            | zero => simp
            | succ j =>
              simp only [List.getD_cons_succ]
              rw [ih4 j (by omega)]
              exact decide_eq_decide.mpr (by omega)
        · simp [retryActionLoop, hb, ha, hv, countFailing, isFailing]
      · by_cases hr : b ≤ count + 1 ∧ dflt = RVal.NOTHING
        · simp only [retryActionLoop, if_neg hb, ha, if_pos hr]
          refine ⟨by omega, by simp, ?_, ?_⟩
          · simp [countFailing, isFailing, ha]
          · intro i hi
            simp only [List.length_singleton] at hi
            have : i = 0 := by omega
            subst this
            simp
        · obtain ⟨ih1, ih2, ih3, ih4⟩ := ih (count + 1)
          simp only [retryActionLoop, if_neg hb, ha, if_neg hr, List.length_cons,
            List.getD_cons_zero, List.getD_cons_succ]
          refine ⟨by omega, by omega, ?_, ?_⟩
          · simp [countFailing, isFailing, ha]
            omega
          · intro i hi
            cases i with
            | zero => simp
            | succ j =>
              simp only [List.getD_cons_succ]
              rw [ih4 j (by omega)]
              exact decide_eq_decide.mpr (by omega)
      · simp [retryActionLoop, hb, ha, countFailing, isFailing]

/-- Claim C4: with the default ceiling of 3, a `RetryAction` run invokes the
wrapped operation at most 3 times, invokes the failure callback exactly once
per failing attempt (retryable error or sentinel-valued return), and passes
`is_final = true` only on the third failing attempt (index 2). -/
theorem retry_ceiling_spec (a : Nat → Attempt) (dflt : RVal) :
    (retryActionCall a 3 dflt).calls ≤ 3 ∧
    (retryActionCall a 3 dflt).triggers.length
      = countFailing a dflt 0 (retryActionCall a 3 dflt).calls ∧
    ∀ i, i < (retryActionCall a 3 dflt).triggers.length →
      (retryActionCall a 3 dflt).triggers.getD i false = decide (i = 2) := by
  obtain ⟨h1, h2, h3, h4⟩ := retryActionLoop_spec a 3 dflt 3 0
  refine ⟨h1, h3, ?_⟩
  intro i hi
  rw [retryActionCall] at hi ⊢
  rw [h4 i hi]
  have hi3 : i < 3 := by omega
  exact decide_eq_decide.mpr (by omega)

/-- Witness for claim C4 at a concrete run: three raised retryable errors. -/
theorem retry_ceiling_spec_witness :
    (retryActionCall (fun _ => Attempt.exnR "connection error") 3 (RVal.vbool false)).calls ≤ 3 ∧
    (retryActionCall (fun _ => Attempt.exnR "connection error") 3 (RVal.vbool false)).triggers.getD 2 false
      = decide ((2 : Nat) = 2) :=
  ⟨(retry_ceiling_spec (fun _ => Attempt.exnR "connection error") (RVal.vbool false)).1,
   (retry_ceiling_spec (fun _ => Attempt.exnR "connection error") (RVal.vbool false)).2.2 2
     (by decide)⟩

/-- Claim C10: for `makedirs` (equally `rename`/`delete`, all wrapped with
fallback `False`, which also serves as the sentinel), a completed HTTP
exchange whose response indicates failure makes the wrapped operation return
`False`, which is compared equal to the default: the attempt counts as
failed, the failure callback fires for it, and the request is re-sent up to
the ceiling of 3 — a trace identical to the one produced when every exchange
dies with a transport error. -/
theorem makedirs_failed_response_like_transport (rs : Nat → SimpleRequestOutcome)
    (h : ∀ i, i < 3 →
      rs i = SimpleRequestOutcome.response false ∨
        ∃ m, rs i = SimpleRequestOutcome.transportError m) :
    makedirs_call rs = ⟨RunResult.returned (RVal.vbool false), 3, [false, false, true]⟩ ∧
    makedirs_call rs
      = makedirs_call (fun _ => SimpleRequestOutcome.transportError "connection error") := by
  have hL : makedirs_call rs
      = ⟨RunResult.returned (RVal.vbool false), 3, [false, false, true]⟩ := by
    rcases h 0 (by omega) with h0 | ⟨m0, h0⟩ <;>
      rcases h 1 (by omega) with h1 | ⟨m1, h1⟩ <;>
        rcases h 2 (by omega) with h2 | ⟨m2, h2⟩ <;>
          simp [makedirs_call, retryActionCall, retryActionLoop, makedirs_attempt,
            h0, h1, h2]
  have hR : makedirs_call (fun _ => SimpleRequestOutcome.transportError "connection error")
      = ⟨RunResult.returned (RVal.vbool false), 3, [false, false, true]⟩ := by decide
  exact ⟨hL, hL.trans hR.symm⟩

/-- Witness for claim C10: every exchange completes with a failing response. -/
theorem makedirs_failed_response_like_transport_witness :
    makedirs_call (fun _ => SimpleRequestOutcome.response false)
      = ⟨RunResult.returned (RVal.vbool false), 3, [false, false, true]⟩ ∧
    makedirs_call (fun _ => SimpleRequestOutcome.response false)
      = makedirs_call (fun _ => SimpleRequestOutcome.transportError "connection error") :=
  makedirs_failed_response_like_transport (fun _ => SimpleRequestOutcome.response false)
    (fun _ _ => Or.inl rfl)

/-- Counterexample to claim C5: a status query that dies with a transport
error is NOT turned into "absent" — `_get_remote_data_type` carries no retry
decorator and no exception handler, so the error propagates to the caller
instead of an `ABSENT` result. -/
theorem stat_transport_error_raises :
    get_remote_data_type (StatusQueryOutcome.transportError "ConnectionError")
      = Except.error "ConnectionError" := rfl

/-- Claim C5 (amended): for every COMPLETED status response,
`_get_remote_data_type` returns without raising — the reported type on a
success response and `None` (absent) on any non-success response; a transport
error raised by the HTTP layer, however, propagates to the caller. -/
theorem stat_completed_response_never_raises (ok : Bool) (t : String) :
    get_remote_data_type (StatusQueryOutcome.response ok t)
      = Except.ok (if ok then some t else none) := by
  cases ok <;> rfl

/-- Helper: whatever the remaining stack budget, a discovery round that finds
an active candidate makes the wrapped call return at once. -/
theorem refresh_call_anf_success (env : Nat → Bool) (d k : Nat) (h : env k = true) :
    refresh_call_anf env d k = (RefreshExecResult.returned, k + 1) := by
  cases d <;> rw [refresh_call_anf, h] <;> simp

/-- Counterexample to claim C6: a discovery round that finds no active
candidate raises `ActiveNamenodeNotFoundException`, but the error is NOT
propagated to the caller and discovery IS re-attempted in response to it.
Environment: the first round finds no active candidate, every later round
does.  The wrapper catches the error (it is in the declared retryable set),
the non-final failure callback synchronously re-enters the decorated
discovery, which succeeds, and the outer attempt then succeeds too: three
discovery rounds run and the call returns normally — the error reaches no
caller (swallowed), refuting both "always propagated" and "no re-attempt of
discovery is made". -/
theorem anf_swallowed_cex :
    refresh_call_anf (fun k => decide (k ≠ 0)) 1 0 = (RefreshExecResult.returned, 3) := by
  decide

/-- Claim C6 (amended): `ActiveNamenodeNotFoundException` is treated as a
retryable error by `_refresh_active_namenode`'s wrapper, and each non-final
failure's callback synchronously re-enters the decorated discovery one stack
level deeper.  Consequently (1) a transient absence of an active candidate is
swallowed: when the rounds after a failed one succeed, the call completes
normally after three rounds; (2) a persistent absence is never propagated as
this error at all: the re-entrant recursion performs one round per available
stack level and ends in interpreter stack exhaustion; (3) the error is
re-raised to the caller only in the flapping pattern where three rounds of
one wrapper fail while each intervening re-entrant discovery succeeds. -/
theorem anf_retryable_dynamics :
    (∀ (env : Nat → Bool) (depth k : Nat), env k = false → env (k + 1) = true →
      env (k + 2) = true →
      refresh_call_anf env (depth + 1) k = (RefreshExecResult.returned, k + 3)) ∧
    (∀ (env : Nat → Bool) (depth k : Nat), (∀ j, env j = false) →
      refresh_call_anf env depth k = (RefreshExecResult.stackExhausted, k + depth + 1)) ∧
    (∀ (env : Nat → Bool) (depth k : Nat), env k = false → env (k + 1) = true →
      env (k + 2) = false → env (k + 3) = true → env (k + 4) = false →
      refresh_call_anf env (depth + 1) k
        = (RefreshExecResult.raised "ActiveNamenodeNotFoundException", k + 5)) := by
  refine ⟨?_, ?_, ?_⟩
  · intro env depth k h0 h1 h2
    rw [refresh_call_anf, h0]
    simp only [Bool.false_eq_true, if_false]
    rw [refresh_call_anf_success env depth (k + 1) h1]
    have h2' : env (k + 1 + 1) = true := by
      rw [show k + 1 + 1 = k + 2 from by omega]
      exact h2
    simp only [h2', if_true]
  · intro env depth k hall
    induction depth generalizing k with
    | zero =>
      rw [refresh_call_anf, hall k]
      simp
    | succ d ihd =>
      rw [refresh_call_anf, hall k]
      simp only [Bool.false_eq_true, if_false]
      rw [ihd (k + 1)]
      rw [show k + 1 + d + 1 = k + (d + 1) + 1 from by omega]
  · intro env depth k h0 h1 h2 h3 h4
    rw [refresh_call_anf, h0]
    simp only [Bool.false_eq_true, if_false]
    rw [refresh_call_anf_success env depth (k + 1) h1]
    have h2' : env (k + 1 + 1) = false := by
      rw [show k + 1 + 1 = k + 2 from by omega]
      exact h2
    simp only [h2', Bool.false_eq_true, if_false]
    have h3' : env (k + 1 + 1 + 1) = true := by
      rw [show k + 1 + 1 + 1 = k + 3 from by omega]
      exact h3
    rw [refresh_call_anf_success env depth (k + 1 + 1 + 1) h3']
    have h4' : env (k + 1 + 1 + 1 + 1) = false := by
      rw [show k + 1 + 1 + 1 + 1 = k + 4 from by omega]
      exact h4
    simp only [h4', Bool.false_eq_true, if_false]

/-- Witness for the amended claim C6 at concrete environments: a transient
miss is swallowed after three rounds, a persistent miss exhausts a stack
budget of 5 after 6 rounds, and the flapping pattern re-raises the error
after 5 rounds. -/
theorem anf_retryable_dynamics_witness :
    refresh_call_anf (fun j => decide (j ≠ 0)) 10 0 = (RefreshExecResult.returned, 3) ∧
    refresh_call_anf (fun _ => false) 5 0 = (RefreshExecResult.stackExhausted, 6) ∧
    refresh_call_anf (fun j => decide (j % 2 = 1)) 1 0
      = (RefreshExecResult.raised "ActiveNamenodeNotFoundException", 5) :=
  ⟨anf_retryable_dynamics.1 (fun j => decide (j ≠ 0)) 9 0 (by decide) (by decide) (by decide),
   anf_retryable_dynamics.2.1 (fun _ => false) 5 0 (fun _ => rfl),
   anf_retryable_dynamics.2.2 (fun j => decide (j % 2 = 1)) 0 0
     (by decide) (by decide) (by decide) (by decide) (by decide)⟩

/-- Counterexample to claim C7: resolving the active node for a request
performs NO discovery regardless of staleness.  `stStale` recorded its last
refresh at time 0; at any later clock reading (say 1000000, far beyond any
refresh interval such as 60) the claim requires discovery before the node is
used, yet the operation's event trace contains no status query at all — only
the one HTTP request, formatted with the cached node.  The source records
`_last_refresh_ts` but never reads it, and `_format_namenode` takes no clock
and no force-refresh flag. -/
theorem stale_state_no_discovery_cex :
    send_request_events stStale "data/x?op=GETFILESTATUS"
      = [ClientEvent.httpRequest "http://nn1:50070/webhdfs/v1/data/x?op=GETFILESTATUS"] := by
  decide

/-- Claim C7 (amended): every operation resolving the active node uses the
cached `_active_namenode` — the node placed at position 0 by the last
successful discovery, which also records the refresh timestamp — and performs
no discovery of its own; the recorded timestamp is never consulted (the event
trace is invariant under changing it), there being no elapsed-time or
force-refresh logic in the source. -/
theorem resolve_always_uses_cached :
    (∀ st pq, send_request_events st pq
        = [ClientEvent.httpRequest (format_namenode st pq)]) ∧
    (∀ st ts' pq,
      send_request_events (⟨st.nns, st.active_namenode, ts'⟩ : ClientState) pq
        = send_request_events st pq) ∧
    (∀ st statuses now st',
      refresh_active_namenode_body st statuses now = some st' →
        st'.active_namenode = st'.nns.headI ∧ st'.last_refresh_ts = now) := by
  refine ⟨fun st pq => rfl, fun st ts' pq => rfl, ?_⟩
  intro st statuses now st' h
  rw [refresh_active_namenode_body] at h
  rcases hf : findActiveIndex statuses with _ | i
  · rw [hf] at h; exact absurd h (by simp)
  · rw [hf] at h
    simp only [Option.some.injEq] at h
    rw [← h]
    exact ⟨rfl, rfl⟩

/-- Witness for the amended claim C7: discovery at the concrete two-candidate
state with the active candidate at index 1 reverses the list, promotes the
new head, and records the clock reading. -/
theorem resolve_always_uses_cached_witness :
    (⟨[nnB, nnA], nnB, 777⟩ : ClientState).active_namenode
        = ([nnB, nnA] : List NameNode).headI ∧
    (⟨[nnB, nnA], nnB, 777⟩ : ClientState).last_refresh_ts = 777 :=
  resolve_always_uses_cached.2.2 stTwoNodes [(false, false), (true, true)] 777
    (⟨[nnB, nnA], nnB, 777⟩ : ClientState) (by decide)

/-- Claim C9: under persistently failing status queries the retry-wrapped
discovery does NOT terminate within its attempt ceiling — each non-final
failed attempt's callback synchronously re-invokes the wrapped discovery
(fresh `RetryAction`, one stack level deeper), so a run granted `depth` stack
levels issues `depth + 1` status queries (unbounded in the stack budget,
exceeding the ceiling of 3 for every `depth ≥ 3`) and ends only by exhausting
the interpreter stack. -/
theorem refresh_trigger_recursion_unbounded :
    ∀ depth : Nat, refresh_loop_under_query_failure depth 0
      = (RefreshExecResult.stackExhausted, depth + 1) := by
  intro depth
  induction depth with
  | zero =>
    unfold refresh_loop_under_query_failure
    simp
  | succ d ih =>
    unfold refresh_loop_under_query_failure
    simp only [ih, show ¬(3 ≤ 0) by omega, if_false, show ¬(2 ≤ 0) by omega,
      Prod.mk.injEq]
    exact ⟨trivial, by omega⟩

/-- Claim C1: on a failed download (`_download_data` returned `False`), the
rollback branch of `_download_by_tmp_data` evaluates
`self._check_and_remove_data(local_tmp_path)` — an attribute `HDFSClient`
does not define — so the call raises `AttributeError`, the local staging path
is left in place, and the declared "staging path removed during rollback"
never happens (the prior target content does survive untouched). -/
theorem download_rollback_raises_attribute_error :
    download_by_tmp_data false [("data/model.bin", LocalContent.oldData)]
        "data/model.bin" "data/model.bin_x_tmp"
      = DownloadOutcome.attributeError
          [("data/model.bin", LocalContent.oldData),
           ("data/model.bin_x_tmp", LocalContent.partialData)] := by
  decide

/-- Helper: the entries of a non-empty forest split as the first child's
subtree entries followed by the remaining children's entries. -/
theorem entriesF_cons_eq (p : FPath) (n : String) (t : FsTree) (rest : FsForest) :
    entriesF p (FsForest.cons n t rest) = entriesT (p ++ [n]) t ++ entriesF p rest := by
  cases t <;> rfl

/-- Helper: the remote entries created by the `os.walk` phase of
`_upload_directory` below a directory are, up to order, exactly that
directory's entries. -/
theorem upload_walk_perm : (p : FPath) → (cs : FsForest) →
    (mkdirEntries p cs ++ fileEntries p cs ++ walkRec p cs).Perm (entriesF p cs)
| p, FsForest.nil => by simp [mkdirEntries, fileEntries, walkRec, entriesF]
| p, FsForest.cons n (FsTree.file b) rest => by
  have ih := upload_walk_perm p rest
  simp only [mkdirEntries, fileEntries, walkRec, entriesF]
  rw [← Multiset.coe_eq_coe] at ih ⊢
  simp only [← Multiset.coe_add, ← Multiset.cons_coe, ← Multiset.singleton_add] at ih ⊢
  rw [← ih]
  abel
| p, FsForest.cons n (FsTree.dir cs) rest => by
  have ihI := upload_walk_perm (p ++ [n]) cs
  have ihR := upload_walk_perm p rest
  simp only [mkdirEntries, fileEntries, walkRec, entriesF]
  rw [← Multiset.coe_eq_coe] at ihI ihR ⊢
  simp only [← Multiset.coe_add, ← Multiset.cons_coe, ← Multiset.singleton_add] at ihI ihR ⊢
  rw [← ihI, ← ihR]
  abel

/-- Helper: under ideal remote operations, `upload` materializes exactly the
entries of the uploaded tree, up to order. -/
theorem upload_data_perm (t : FsTree) : (upload_data t).Perm (entriesT [] t) := by
  cases t with
  | file b => simp [upload_data, entriesT]
  | dir cs =>
    simp only [upload_data, upload_directory, entriesT]
    exact (upload_walk_perm [] cs).cons _

/-- Helper: every entry of a forest below `p` sits strictly below `p`. -/
theorem entriesF_extends : (p : FPath) → (cs : FsForest) → ∀ q e,
    (q, e) ∈ entriesF p cs → ∃ n s, q = p ++ n :: s
| p, FsForest.nil => by intro q e h; simp [entriesF] at h
| p, FsForest.cons n (FsTree.file b) rest => by
  intro q e h
  simp only [entriesF, List.mem_cons] at h
  rcases h with h | h
  · simp only [Prod.mk.injEq] at h
    exact ⟨n, [], h.1⟩
  · exact entriesF_extends p rest q e h
| p, FsForest.cons n (FsTree.dir cs) rest => by
  intro q e h
  simp only [entriesF, List.mem_cons, List.mem_append] at h
  rcases h with h | h | h
  · simp only [Prod.mk.injEq] at h
    exact ⟨n, [], h.1⟩
  · obtain ⟨m, s, hms⟩ := entriesF_extends (p ++ [n]) cs q e h
    exact ⟨n, m :: s, by rw [hms, List.append_assoc]; rfl⟩
  · exact entriesF_extends p rest q e h

/-- Helper: every entry of a tree rooted at `r ++ [m]` has a path of the form
`r ++ m :: s`. -/
theorem entriesT_extends_cons (r : FPath) (m : String) (c : FsTree) :
    ∀ q e, (q, e) ∈ entriesT (r ++ [m]) c → ∃ s, q = r ++ m :: s := by
  intro q e h
  cases c with
  | file b =>
    simp only [entriesT, List.mem_singleton, Prod.mk.injEq] at h
    exact ⟨[], h.1⟩
  | dir cs =>
    simp only [entriesT, List.mem_cons] at h
    rcases h with h | h
    · simp only [Prod.mk.injEq] at h
      exact ⟨[], h.1⟩
    · obtain ⟨x, s, hq⟩ := entriesF_extends (r ++ [m]) cs q e h
      exact ⟨x :: s, by rw [hq, List.append_assoc]; rfl⟩

/-- Helper: `childNameOf` recognises exactly the direct children. -/
theorem childNameOf_eq_some (p q : FPath) (n : String) :
    childNameOf p q = some n ↔ q = p ++ [n] := by
  constructor
  · intro h
    rw [childNameOf] at h
    rcases hd : q.drop p.length with _ | ⟨x, t⟩
    · rw [hd] at h; simp at h
    · rcases t with _ | ⟨y, t'⟩
      · rw [hd] at h
        by_cases ht : q.take p.length = p
        · simp only [ht, if_pos, Option.some.injEq] at h
          subst h
          calc q = q.take p.length ++ q.drop p.length := (List.take_append_drop _ _).symm
            _ = p ++ [x] := by rw [ht, hd]
        · simp [ht] at h
      · rw [hd] at h; simp at h
  · intro h
    subst h
    rw [childNameOf]
    simp [List.drop_left, List.take_left]

/-- Helper: listing distributes over store concatenation. -/
theorem children_of_append (m₁ m₂ : List (FPath × Entry)) (p : FPath) :
    children_of (m₁ ++ m₂) p = children_of m₁ p ++ children_of m₂ p := by
  simp [children_of]

/-- Helper: a subtree rooted at a sibling name `m ≠ n` contributes nothing to
the listing of any path below the `n` child. -/
theorem children_of_sibling (r : FPath) (m n : String) (rel : FPath) (c : FsTree)
    (hmn : m ≠ n) : children_of (entriesT (r ++ [m]) c) (r ++ n :: rel) = [] := by
  rw [children_of, List.filterMap_eq_nil_iff]
  intro qe hqe
  obtain ⟨s, hq⟩ := entriesT_extends_cons r m c qe.1 qe.2 hqe
  rcases hcn : childNameOf (r ++ n :: rel) qe.1 with _ | x
  · simp
  · exfalso
    rw [childNameOf_eq_some] at hcn
    have h2 : r ++ m :: s = r ++ n :: (rel ++ [x]) := by
      rw [← hq, hcn, List.append_assoc]; rfl
    have h3 : (m :: s : FPath) = n :: (rel ++ [x]) := List.append_cancel_left h2
    exact hmn (by injection h3)

/-- Helper: entries strictly below a child contribute nothing to the listing
of the parent. -/
theorem children_of_deeper (p : FPath) (n : String) (cs : FsForest) :
    children_of (entriesF (p ++ [n]) cs) p = [] := by
  rw [children_of, List.filterMap_eq_nil_iff]
  intro qe hqe
  obtain ⟨x, s, hq⟩ := entriesF_extends (p ++ [n]) cs qe.1 qe.2 hqe
  rcases hcn : childNameOf p qe.1 with _ | y
  · simp
  · exfalso
    rw [childNameOf_eq_some] at hcn
    have h2 : p ++ [y] = p ++ n :: x :: s := by
      rw [← hcn, hq, List.append_assoc]; rfl
    have h3 : ([y] : FPath) = n :: x :: s := List.append_cancel_left h2
    simp at h3

/-- Helper: a store entry that is not a direct child of `p` drops out of the
listing. -/
theorem children_of_cons_none (qe : FPath × Entry) (m : List (FPath × Entry)) (p : FPath)
    (h : childNameOf p qe.1 = none) : children_of (qe :: m) p = children_of m p := by
  simp [children_of, List.filterMap_cons, h]

/-- Helper: listing a directory path over exactly its child's subtree yields
that child alone. -/
theorem children_of_child (p : FPath) (n : String) (c : FsTree) :
    children_of (entriesT (p ++ [n]) c) p = [(n, topEntry c)] := by
  have hc : childNameOf p (p ++ [n]) = some n := (childNameOf_eq_some p (p ++ [n]) n).mpr rfl
  cases c with
  | file b => simp [entriesT, children_of, hc, topEntry]
  | dir cs =>
    have hd := children_of_deeper p n cs
    rw [children_of] at hd ⊢
    simp [entriesT, hc, topEntry, hd]

/-- Helper: listing the root of a forest's own entries yields exactly the
forest's children. -/
theorem children_of_self : (r : FPath) → (cs : FsForest) →
    children_of (entriesF r cs) r = topPairs cs
| r, FsForest.nil => by simp [entriesF, children_of, topPairs, childList]
| r, FsForest.cons n t rest => by
  rw [entriesF_cons_eq, children_of_append, children_of_child,
    children_of_self r rest]
  simp [topPairs, childList]

/-- Helper: components of a well-formed forest node. -/
theorem wfF_cons_parts (n : String) (t : FsTree) (rest : FsForest)
    (h : wfF (FsForest.cons n t rest) = true) :
    n ≠ "" ∧ hasName rest n = false ∧ wfF rest = true := by
  cases t <;> simp [wfF] at h <;> tauto

/-- Helper: the child forest of a well-formed directory node is
well-formed. -/
theorem wfF_cons_child (n : String) (cs rest : FsForest)
    (h : wfF (FsForest.cons n (FsTree.dir cs) rest) = true) : wfF cs = true := by
  simp [wfF] at h
  tauto

/-- Helper: a forest with no child named `n` contributes nothing to the
listing of any path below `n`. -/
theorem children_of_absent : (cs : FsForest) → ∀ (r : FPath) (n : String) (rel : FPath),
    hasName cs n = false → children_of (entriesF r cs) (r ++ n :: rel) = []
| FsForest.nil => by intro r n rel _; simp [entriesF, children_of]
| FsForest.cons m t rest => by
  intro r n rel h
  simp only [hasName, Bool.or_eq_false_iff] at h
  obtain ⟨hmn, hrest⟩ := h
  have hmn' : m ≠ n := by simpa using hmn
  rw [entriesF_cons_eq, children_of_append,
    children_of_sibling r m n rel t hmn',
    children_of_absent rest r n rel hrest]
  rfl

/-- Helper: listing below the child named `n` of a well-formed forest sees
only that child's subtree. -/
theorem children_of_found : (cs : FsForest) → ∀ (r : FPath) (n : String) (rel : FPath)
    (c₀ : FsTree), wfF cs = true → findChild cs n = some c₀ →
    children_of (entriesF r cs) (r ++ n :: rel)
      = children_of (entriesT (r ++ [n]) c₀) (r ++ n :: rel)
| FsForest.nil => by intro r n rel c₀ _ hf; simp [findChild] at hf
| FsForest.cons m t rest => by
  intro r n rel c₀ hw hf
  obtain ⟨hne, hname, hwrest⟩ := wfF_cons_parts m t rest hw
  rw [findChild] at hf
  by_cases hmn : m = n
  · subst hmn
    rw [if_pos rfl, Option.some.injEq] at hf
    subst hf
    rw [entriesF_cons_eq, children_of_append,
      children_of_absent rest r m rel hname, List.append_nil]
  · rw [if_neg hmn] at hf
    rw [entriesF_cons_eq, children_of_append,
      children_of_sibling r m n rel t hmn, List.nil_append]
    exact children_of_found rest r n rel c₀ hwrest hf

/-- Helper: a child found in a well-formed forest is well-formed. -/
theorem wf_findChild : (cs : FsForest) → ∀ (n : String) (c : FsTree),
    wfF cs = true → findChild cs n = some c → wfT c = true
| FsForest.nil => by intro n c _ hf; simp [findChild] at hf
| FsForest.cons m t rest => by
  intro n c hw hf
  rw [findChild] at hf
  by_cases hmn : m = n
  · rw [if_pos hmn, Option.some.injEq] at hf
    subst hf
    cases t with
    | file b => simp [wfT]
    | dir cs' => exact wfF_cons_child m cs' rest hw
  · rw [if_neg hmn] at hf
    exact wf_findChild rest n c (wfF_cons_parts m t rest hw).2.2 hf

/-- Helper: the subtree at any resolvable path of a well-formed tree is
well-formed. -/
theorem wf_lookupTree : (rel : FPath) → ∀ (c s : FsTree),
    wfT c = true → lookupTree rel c = some s → wfT s = true
| [] => by
  intro c s hw hl
  rw [lookupTree, Option.some.injEq] at hl
  rw [← hl]; exact hw
| n :: rest => by
  intro c s hw hl
  cases c with
  | file b => simp [lookupTree] at hl
  | dir cs =>
    rw [lookupTree] at hl
    rcases hf : findChild cs n with _ | c₀
    · rw [hf] at hl; simp at hl
    · rw [hf] at hl
      exact wf_lookupTree rest c₀ s (wf_findChild cs n c₀ hw hf) hl

/-- Helper: listing any directory path of a well-formed tree's entries yields
exactly the children the tree has there (`LISTSTATUS` contents against the
canonical store). -/
theorem children_of_at : (rel : FPath) → ∀ (c : FsTree) (r : FPath) (cs' : FsForest),
    wfT c = true → lookupTree rel c = some (FsTree.dir cs') →
    children_of (entriesT r c) (r ++ rel) = topPairs cs'
| [] => by
  intro c r cs' hw hl
  rw [lookupTree, Option.some.injEq] at hl
  subst hl
  have hnone : childNameOf r r = none := by
    simp [childNameOf, List.drop_length]
  rw [List.append_nil]
  show children_of ((r, Entry.dir) :: entriesF r cs') r = topPairs cs'
  rw [children_of_cons_none (r, Entry.dir) (entriesF r cs') r hnone]
  exact children_of_self r cs'
| n :: rel' => by
  intro c r cs' hw hl
  cases c with
  | file b => simp [lookupTree] at hl
  | dir cs =>
    rw [lookupTree] at hl
    rcases hf : findChild cs n with _ | c₀
    · rw [hf] at hl; simp at hl
    · rw [hf] at hl
      have hnone : childNameOf (r ++ n :: rel') r = none := by
        rcases h : childNameOf (r ++ n :: rel') r with _ | x
        · rfl
        · exfalso
          rw [childNameOf_eq_some] at h
          have := congrArg List.length h
          simp [List.length_append] at this
      show children_of ((r, Entry.dir) :: entriesF r cs) (r ++ n :: rel') = topPairs cs'
      rw [children_of_cons_none (r, Entry.dir) (entriesF r cs) (r ++ n :: rel') hnone,
        children_of_found cs r n rel' c₀ hw hf]
      have hrw : r ++ n :: rel' = (r ++ [n]) ++ rel' := by
        rw [List.append_assoc]; rfl
      rw [hrw]
      exact children_of_at rel' c₀ (r ++ [n]) cs'
        (wf_findChild cs n c₀ hw hf) hl

/-- Helper: path resolution splits over path concatenation. -/
theorem lookupTree_append : (rel : FPath) → ∀ (rel' : FPath) (t : FsTree),
    lookupTree (rel ++ rel') t
      = match lookupTree rel t with
        | some s => lookupTree rel' s
        | none => none
| [] => by intro rel' t; rfl
| n :: rest => by
  intro rel' t
  cases t with
  | file b => simp [lookupTree]
  | dir cs =>
    show lookupTree (n :: (rest ++ rel')) (FsTree.dir cs) = _
    rw [lookupTree, lookupTree]
    rcases hf : findChild cs n with _ | c₀
    · rfl
    · exact lookupTree_append rest rel' c₀

/-- Helper: resolving one step further down. -/
theorem lookupTree_child (t : FsTree) (p : FPath) (cs' : FsForest) (n : String)
    (c₀ : FsTree) (hp : lookupTree p t = some (FsTree.dir cs'))
    (hc : findChild cs' n = some c₀) : lookupTree (p ++ [n]) t = some c₀ := by
  rw [lookupTree_append p [n] t, hp]
  show lookupTree [n] (FsTree.dir cs') = some c₀
  rw [lookupTree, hc]
  rfl

/-- Helper: a found child's name is present. -/
theorem findChild_hasName : (cs : FsForest) → ∀ (n : String) (c : FsTree),
    findChild cs n = some c → hasName cs n = true
| FsForest.nil => by intro n c hf; simp [findChild] at hf
| FsForest.cons m t rest => by
  intro n c hf
  rw [findChild] at hf
  rw [hasName]
  by_cases hmn : m = n
  · simp [hmn]
  · rw [if_neg hmn] at hf
    simp [findChild_hasName rest n c hf]

/-- Helper: unfolding of the listing of a forest node. -/
theorem topPairs_cons (m : String) (c : FsTree) (rest : FsForest) :
    topPairs (FsForest.cons m c rest) = (m, topEntry c) :: topPairs rest := rfl

/-- Helper: in a well-formed forest, a listed (name, entry) pair comes from a
unique child found under that name. -/
theorem topPairs_mem_findChild : (cs : FsForest) → ∀ (n : String) (e : Entry),
    wfF cs = true → (n, e) ∈ topPairs cs →
    ∃ c₀, findChild cs n = some c₀ ∧ topEntry c₀ = e
| FsForest.nil => by intro n e _ h; simp [topPairs, childList] at h
| FsForest.cons m t rest => by
  intro n e hw h
  obtain ⟨hne, hname, hwrest⟩ := wfF_cons_parts m t rest hw
  rw [topPairs_cons, List.mem_cons] at h
  rcases h with h | h
  · simp only [Prod.mk.injEq] at h
    obtain ⟨h1, h2⟩ := h
    subst h1
    exact ⟨t, by rw [findChild, if_pos rfl], h2.symm⟩
  · obtain ⟨c₀, hf, ht⟩ := topPairs_mem_findChild rest n e hwrest h
    refine ⟨c₀, ?_, ht⟩
    rw [findChild]
    have hmn : m ≠ n := by
      intro hx
      subst hx
      exact absurd (findChild_hasName rest m c₀ hf) (by simp [hname])
    rw [if_neg hmn]
    exact hf

/-- Helper: listed names of a well-formed forest are non-empty. -/
theorem topPairs_name_ne_empty : (cs : FsForest) → ∀ (n : String) (e : Entry),
    wfF cs = true → (n, e) ∈ topPairs cs → n ≠ ""
| FsForest.nil => by intro n e _ h; simp [topPairs, childList] at h
| FsForest.cons m t rest => by
  intro n e hw h
  obtain ⟨hne, hname, hwrest⟩ := wfF_cons_parts m t rest hw
  rw [topPairs_cons, List.mem_cons] at h
  rcases h with h | h
  · simp only [Prod.mk.injEq] at h
    rw [h.1]
    exact hne
  · exact topPairs_name_ne_empty rest n e hwrest h

/-- Helper: the listed sub-directories of a well-formed directory account for
exactly its directory count below the node: the queue's pending work shrinks
by exactly one when a directory is popped and its children are enqueued. -/
theorem dirCount_sum_topPairs (t : FsTree) (p : FPath) :
    (cs : FsForest) → wfF cs = true →
    (∀ n c₀, findChild cs n = some c₀ → lookupTree (p ++ [n]) t = some c₀) →
    (((topPairs cs).filter dirPred).map (fun ne => dirCountAt t (p ++ [ne.1]))).sum
      = dirCountF cs
| FsForest.nil => by intro _ _; simp [topPairs, childList, dirCountF]
| FsForest.cons m c rest => by
  intro hw hres
  obtain ⟨hne, hname, hwrest⟩ := wfF_cons_parts m c rest hw
  have hres' : ∀ n c₀, findChild rest n = some c₀ → lookupTree (p ++ [n]) t = some c₀ := by
    intro n c₀ hf
    apply hres
    rw [findChild]
    have hmn : m ≠ n := by
      intro hx
      subst hx
      exact absurd (findChild_hasName rest m c₀ hf) (by simp [hname])
    rw [if_neg hmn]
    exact hf
  have ih := dirCount_sum_topPairs t p rest hwrest hres'
  have hm : lookupTree (p ++ [m]) t = some c := hres m c (by rw [findChild, if_pos rfl])
  cases c with
  | file b =>
    rw [topPairs_cons]
    have hpred : dirPred (m, topEntry (FsTree.file b)) = false := rfl
    rw [List.filter_cons, hpred]
    simp only [Bool.false_eq_true, if_false, dirCountF]
    exact ih
  | dir cs₀ =>
    rw [topPairs_cons]
    have hpred : dirPred (m, topEntry (FsTree.dir cs₀)) = true := by
      simp [dirPred, topEntry, hne]
    rw [List.filter_cons, hpred]
    simp only [if_true, List.map_cons, List.sum_cons]
    have hcnt : dirCountAt t (p ++ [m]) = 1 + dirCountF cs₀ := by
      rw [dirCountAt, hm]
      rfl
    rw [hcnt, ih, dirCountF]

/-- Helper: a well-formed directory's entries split, up to order, into the
files its listing reports and the full entry sets of the sub-directories its
listing reports (the very pieces `_download_directory` materializes for one
popped queue element). -/
theorem entries_partition (t : FsTree) (p : FPath) :
    (cs : FsForest) → wfF cs = true →
    (∀ n c₀, findChild cs n = some c₀ → lookupTree (p ++ [n]) t = some c₀) →
    (((topPairs cs).filter filePred).map (fun ne => ((p ++ [ne.1] : FPath), ne.2))
      ++ ((topPairs cs).filter dirPred).flatMap (fun ne => entriesAt t (p ++ [ne.1]))).Perm
      (entriesF p cs)
| FsForest.nil => by intro _ _; simp [topPairs, childList, entriesF]
| FsForest.cons m c rest => by
  intro hw hres
  obtain ⟨hne, hname, hwrest⟩ := wfF_cons_parts m c rest hw
  have hres' : ∀ n c₀, findChild rest n = some c₀ → lookupTree (p ++ [n]) t = some c₀ := by
    intro n c₀ hf
    apply hres
    rw [findChild]
    have hmn : m ≠ n := by
      intro hx
      subst hx
      exact absurd (findChild_hasName rest m c₀ hf) (by simp [hname])
    rw [if_neg hmn]
    exact hf
  have ih := entries_partition t p rest hwrest hres'
  have hm : lookupTree (p ++ [m]) t = some c := hres m c (by rw [findChild, if_pos rfl])
  cases c with
  | file b =>
    rw [topPairs_cons]
    have hf1 : filePred (m, topEntry (FsTree.file b)) = true := by
      simp [filePred, topEntry, isFileEntry, hne]
    have hd1 : dirPred (m, topEntry (FsTree.file b)) = false := rfl
    rw [List.filter_cons, List.filter_cons, hf1, hd1]
    simp only [if_true, Bool.false_eq_true, if_false, List.map_cons]
    rw [entriesF_cons_eq]
    show ((p ++ [m], Entry.file b)
        :: ((topPairs rest).filter filePred).map (fun ne => ((p ++ [ne.1] : FPath), ne.2))
      ++ ((topPairs rest).filter dirPred).flatMap (fun ne => entriesAt t (p ++ [ne.1]))).Perm
      (entriesT (p ++ [m]) (FsTree.file b) ++ entriesF p rest)
    rw [show entriesT (p ++ [m]) (FsTree.file b) = [(p ++ [m], Entry.file b)] from rfl]
    rw [List.cons_append, List.singleton_append]
    exact ih.cons _
  | dir cs₀ =>
    rw [topPairs_cons]
    have hf1 : filePred (m, topEntry (FsTree.dir cs₀)) = false := rfl
    have hd1 : dirPred (m, topEntry (FsTree.dir cs₀)) = true := by
      simp [dirPred, topEntry, hne]
    rw [List.filter_cons, List.filter_cons, hf1, hd1]
    simp only [if_true, Bool.false_eq_true, if_false, List.flatMap_cons]
    rw [entriesF_cons_eq]
    have hat : entriesAt t (p ++ [m]) = entriesT (p ++ [m]) (FsTree.dir cs₀) := by
      rw [entriesAt, hm]
    rw [hat]
    rw [← Multiset.coe_eq_coe] at ih ⊢
    simp only [← Multiset.coe_add, ← Multiset.cons_coe, ← Multiset.singleton_add] at ih ⊢
    rw [← ih]
    abel

/-- Helper: correctness of the breadth-first download loop — against a store
that lists, up to order, the entries of a well-formed tree, and given a queue
of resolvable directory paths with fuel at least the number of directories
still to visit, the loop completes and extends the accumulator by exactly the
entries below the queued paths, up to order. -/
theorem download_directory_spec (t : FsTree) (m : List (FPath × Entry))
    (hw : wfT t = true) (hm : m.Perm (entriesT [] t)) :
    ∀ (fuel : Nat) (q : List FPath) (acc : List (FPath × Entry)),
      (∀ p ∈ q, isDirAt t p = true) →
      (q.map (dirCountAt t)).sum ≤ fuel →
      ∃ res, download_directory m fuel q acc = some res ∧
        res.Perm (acc ++ q.flatMap (entriesAt t)) := by
  intro fuel
  induction fuel with
  | zero =>
    intro q acc hq hsum
    cases q with
    | nil => exact ⟨acc, rfl, by simp⟩
    | cons p queue =>
      exfalso
      have h1 : isDirAt t p = true := hq p (List.mem_cons_self p queue)
      have h2 : 1 ≤ dirCountAt t p := by
        rw [isDirAt] at h1
        rcases hlk : lookupTree p t with _ | s
        · rw [hlk] at h1; simp at h1
        · cases s with
          | file b => rw [hlk] at h1; simp at h1
          | dir cs =>
            rw [dirCountAt, hlk]
            show 1 ≤ 1 + dirCountF cs
            omega
      rw [List.map_cons, List.sum_cons] at hsum
      omega
  | succ n ih =>
    intro q acc hq hsum
    cases q with
    | nil => exact ⟨acc, rfl, by simp⟩
    | cons p queue =>
      have hdp : isDirAt t p = true := hq p (List.mem_cons_self p queue)
      obtain ⟨cs', hl⟩ : ∃ cs', lookupTree p t = some (FsTree.dir cs') := by
        rw [isDirAt] at hdp
        rcases hlk : lookupTree p t with _ | s
        · rw [hlk] at hdp; simp at hdp
        · cases s with
          | file b => rw [hlk] at hdp; simp at hdp
          | dir cs => exact ⟨cs, rfl⟩
      have hwcs : wfF cs' = true := wf_lookupTree p t (FsTree.dir cs') hw hl
      have hres : ∀ nm c₀, findChild cs' nm = some c₀ →
          lookupTree (p ++ [nm]) t = some c₀ :=
        fun nm c₀ hc => lookupTree_child t p cs' nm c₀ hl hc
      have hch : (children_of m p).Perm (topPairs cs') := by
        have h0 : children_of (entriesT [] t) ([] ++ p) = topPairs cs' :=
          children_of_at p t [] cs' hw hl
        rw [List.nil_append] at h0
        have h1 : (children_of m p).Perm (children_of (entriesT [] t) p) :=
          hm.filterMap _
        rw [h0] at h1
        exact h1
      have hds : ((children_of m p).filter dirPred).Perm
          ((topPairs cs').filter dirPred) := hch.filter dirPred
      have hfls : ((children_of m p).filter filePred).Perm
          ((topPairs cs').filter filePred) := hch.filter filePred
      have hdirchild : ∀ ne ∈ (topPairs cs').filter dirPred,
          ∃ cs₀, lookupTree (p ++ [ne.1]) t = some (FsTree.dir cs₀) := by
        intro ne hne
        rw [List.mem_filter] at hne
        obtain ⟨hmem, hpred⟩ := hne
        simp only [dirPred, Bool.and_eq_true, beq_iff_eq, bne_iff_ne, ne_eq] at hpred
        obtain ⟨he, hne0⟩ := hpred
        obtain ⟨c₀, hf, ht⟩ := topPairs_mem_findChild cs' ne.1 ne.2 hwcs
          (by rw [Prod.mk.eta]; exact hmem)
        rw [he] at ht
        cases c₀ with
        | file b => simp [topEntry] at ht
        | dir cs₀ => exact ⟨cs₀, hres ne.1 (FsTree.dir cs₀) hf⟩
      have hq' : ∀ x ∈ queue ++ ((children_of m p).filter dirPred).map
          (fun ne => p ++ [ne.1]), isDirAt t x = true := by
        intro x hx
        rw [List.mem_append] at hx
        rcases hx with hx | hx
        · exact hq x (List.mem_cons_of_mem p hx)
        · rw [List.mem_map] at hx
          obtain ⟨ne, hne, hxe⟩ := hx
          have hne' : ne ∈ (topPairs cs').filter dirPred := (hds.mem_iff).mp hne
          obtain ⟨cs₀, hl₀⟩ := hdirchild ne hne'
          rw [← hxe, isDirAt, hl₀]
      have hsum' : ((queue ++ ((children_of m p).filter dirPred).map
          (fun ne => p ++ [ne.1])).map (dirCountAt t)).sum ≤ n := by
        rw [List.map_append, List.sum_append]
        have e1 : ((((children_of m p).filter dirPred).map
              (fun ne => p ++ [ne.1])).map (dirCountAt t))
            = ((children_of m p).filter dirPred).map
              (fun ne => dirCountAt t (p ++ [ne.1])) := by
          rw [List.map_map]
          rfl
        have e2 : (((children_of m p).filter dirPred).map
              (fun ne => dirCountAt t (p ++ [ne.1]))).sum
            = (((topPairs cs').filter dirPred).map
              (fun ne => dirCountAt t (p ++ [ne.1]))).sum :=
          (hds.map _).sum_eq
        have e3 := dirCount_sum_topPairs t p cs' hwcs hres
        have e4 : dirCountAt t p = 1 + dirCountF cs' := by
          rw [dirCountAt, hl]
          rfl
        rw [List.map_cons, List.sum_cons, e4] at hsum
        rw [e1, e2, e3]
        omega
      obtain ⟨res, hstep, hperm⟩ := ih
        (queue ++ ((children_of m p).filter dirPred).map (fun ne => p ++ [ne.1]))
        (acc ++ (p, Entry.dir)
          :: ((children_of m p).filter filePred).map (fun ne => (p ++ [ne.1], ne.2)))
        hq' hsum'
      refine ⟨res, ?_, ?_⟩
      · rw [download_directory]
        exact hstep
      · have hflat : ((((children_of m p).filter dirPred).map
              (fun ne => p ++ [ne.1])).flatMap (entriesAt t))
            = ((children_of m p).filter dirPred).flatMap
              (fun ne => entriesAt t (p ++ [ne.1])) := by
          rw [List.flatMap_map]
        rw [List.flatMap_append, hflat] at hperm
        have hpart := entries_partition t p cs' hwcs hres
        have hFL : (((children_of m p).filter filePred).map
              (fun ne => ((p ++ [ne.1] : FPath), ne.2))).Perm
            (((topPairs cs').filter filePred).map
              (fun ne => ((p ++ [ne.1] : FPath), ne.2))) := hfls.map _
        have hDS : (((children_of m p).filter dirPred).flatMap
              (fun ne => entriesAt t (p ++ [ne.1]))).Perm
            (((topPairs cs').filter dirPred).flatMap
              (fun ne => entriesAt t (p ++ [ne.1]))) := hds.flatMap_right _
        rw [List.flatMap_cons]
        have hap : entriesAt t p = (p, Entry.dir) :: entriesF p cs' := by
          rw [entriesAt, hl]
          rfl
        rw [hap]
        rw [← Multiset.coe_eq_coe] at hperm hFL hDS hpart ⊢
        simp only [← Multiset.coe_add, ← Multiset.cons_coe, ← Multiset.singleton_add]
          at hperm hFL hDS hpart ⊢
        rw [hperm, hFL, hDS, ← hpart]
        abel

/-- Claim C2: round-trip losslessness of the transfer engines under ideal
remote operations — uploading any well-formed local tree (`_upload_data`:
depth-first `os.walk`, one `makedirs` per directory, one `_upload_file` per
file) and then downloading the result (`_download_data`: `GETFILESTATUS`
dispatch, breadth-first `_download_directory`, one `_download_file` per
listed file) reproduces exactly the original tree's relative structure and
byte contents: the downloaded entries are a permutation of the source tree's
path-keyed entries, hence equal as path-keyed stores. -/
theorem upload_download_roundtrip (t : FsTree) (hw : wfT t = true) :
    ∃ res, download_data (upload_data t) (dirCount t) = some res ∧
      res.Perm (entriesT [] t) := by
  cases t with
  | file b => exact ⟨[([], Entry.file b)], rfl, List.Perm.refl _⟩
  | dir cs =>
    have hup : (upload_data (FsTree.dir cs)).Perm (entriesT [] (FsTree.dir cs)) :=
      upload_data_perm (FsTree.dir cs)
    obtain ⟨res, hrun, hperm⟩ := download_directory_spec (FsTree.dir cs)
      (upload_data (FsTree.dir cs)) hw hup (dirCount (FsTree.dir cs)) [[]] []
      (by
        intro p hp
        simp only [List.mem_singleton] at hp
        subst hp
        rfl)
      (by simp [dirCountAt, lookupTree])
    refine ⟨res, hrun, ?_⟩
    have hflat : (([([] : FPath)]).flatMap (entriesAt (FsTree.dir cs)))
        = entriesT [] (FsTree.dir cs) := by
      simp [entriesAt, lookupTree]
    rw [hflat, List.nil_append] at hperm
    exact hperm

/-- Witness for claim C2: the spec's example tree `{a/, a/x.txt, a/b/y.txt}`
round-trips. -/
theorem upload_download_roundtrip_witness :
    wfT sampleTree = true ∧
    ∃ res, download_data (upload_data sampleTree) (dirCount sampleTree) = some res ∧
      res.Perm (entriesT [] sampleTree) :=
  ⟨by decide, upload_download_roundtrip sampleTree (by decide)⟩

/-- Helper: freshly enqueued child paths all share one length. -/
theorem pairwise_len_map_children (p : FPath) (l : List (String × Entry)) :
    List.Pairwise (fun a b : FPath => a.length ≤ b.length)
      (l.map (fun ne => p ++ [ne.1])) := by
  induction l with
  | nil => simp
  | cons x xs ihp =>
    simp only [List.map_cons, List.pairwise_cons]
    refine ⟨?_, ihp⟩
    intro b hb
    rw [List.mem_map] at hb
    obtain ⟨ne, _, hbe⟩ := hb
    rw [← hbe]
    simp

/-- Helper: downloaded file entries contribute no dir entries. -/
theorem dirEntriesOf_files_nil (p : FPath) (l : List (String × Entry)) :
    dirEntriesOf ((l.filter filePred).map (fun ne => ((p ++ [ne.1] : FPath), ne.2))) = [] := by
  rw [dirEntriesOf, List.filter_eq_nil_iff]
  intro pe hpe
  rw [List.mem_map] at hpe
  obtain ⟨ne, hnef, hpee⟩ := hpe
  rw [List.mem_filter] at hnef
  have hfp := hnef.2
  rw [filePred, Bool.and_eq_true] at hfp
  cases hne2 : ne.2 with
  | dir => rw [hne2] at hfp; simp [isFileEntry] at hfp
  | file b =>
    rw [← hpee]
    simp [hne2]

/-- Helper: the queue of `_download_directory` processes directories in
non-decreasing depth order — depth invariants of the work queue are preserved
by each iteration, so the dir entries of the final output (one per processed
queue element, in processing order) come out sorted by depth. -/
theorem download_bfs_order_aux (m : List (FPath × Entry)) :
    ∀ (fuel : Nat) (q : List FPath) (acc res : List (FPath × Entry)),
      List.Pairwise (fun a b : FPath => a.length ≤ b.length) q →
      (∀ a ∈ q, ∀ b ∈ q, a.length ≤ b.length + 1) →
      List.Pairwise (fun a b : FPath × Entry => a.1.length ≤ b.1.length) (dirEntriesOf acc) →
      (∀ pe ∈ dirEntriesOf acc, ∀ x ∈ q, pe.1.length ≤ x.length) →
      download_directory m fuel q acc = some res →
      List.Pairwise (fun a b : FPath × Entry => a.1.length ≤ b.1.length) (dirEntriesOf res) := by
  intro fuel
  induction fuel with
  | zero =>
    intro q acc res hq1 hq2 ha1 ha2 hrun
    cases q with
    | nil =>
      rw [download_directory, Option.some.injEq] at hrun
      rw [← hrun]
      exact ha1
    | cons p queue => rw [download_directory] at hrun; simp at hrun
  | succ n ih =>
    intro q acc res hq1 hq2 ha1 ha2 hrun
    cases q with
    | nil =>
      rw [download_directory, Option.some.injEq] at hrun
      rw [← hrun]
      exact ha1
    | cons p queue =>
      rw [download_directory] at hrun
      have hlen : ∀ x ∈ ((children_of m p).filter dirPred).map
          (fun ne => p ++ [ne.1]), x.length = p.length + 1 := by
        intro x hx
        rw [List.mem_map] at hx
        obtain ⟨ne, _, hxe⟩ := hx
        rw [← hxe]
        simp
      have hq1head : ∀ b ∈ queue, p.length ≤ b.length :=
        (List.pairwise_cons.mp hq1).1
      have hq1tail : List.Pairwise (fun a b : FPath => a.length ≤ b.length) queue :=
        (List.pairwise_cons.mp hq1).2
      refine ih (queue ++ ((children_of m p).filter dirPred).map (fun ne => p ++ [ne.1]))
        (acc ++ (p, Entry.dir)
          :: ((children_of m p).filter filePred).map (fun ne => (p ++ [ne.1], ne.2)))
        res ?_ ?_ ?_ ?_ hrun
      · rw [List.pairwise_append]
        refine ⟨hq1tail, pairwise_len_map_children p _, ?_⟩
        intro a ha b hb
        have h1 : a.length ≤ p.length + 1 :=
          hq2 a (List.mem_cons_of_mem p ha) p (List.mem_cons_self p queue)
        rw [hlen b hb]
        exact h1
      · intro a ha b hb
        rw [List.mem_append] at ha hb
        rcases ha with ha | ha <;> rcases hb with hb | hb
        · exact hq2 a (List.mem_cons_of_mem p ha) b (List.mem_cons_of_mem p hb)
        · have h1 : a.length ≤ p.length + 1 :=
            hq2 a (List.mem_cons_of_mem p ha) p (List.mem_cons_self p queue)
          rw [hlen b hb]
          omega
        · rw [hlen a ha]
          have h1 : p.length ≤ b.length := hq1head b hb
          omega
        · rw [hlen a ha, hlen b hb]
          omega
      · rw [dirEntriesOf, List.filter_append]
        rw [show List.filter (fun pe => pe.2 == Entry.dir)
              ((p, Entry.dir)
                :: ((children_of m p).filter filePred).map (fun ne => (p ++ [ne.1], ne.2)))
            = (p, Entry.dir)
              :: List.filter (fun pe => pe.2 == Entry.dir)
                (((children_of m p).filter filePred).map (fun ne => (p ++ [ne.1], ne.2)))
          from by rw [List.filter_cons]; rfl]
        rw [show List.filter (fun pe => pe.2 == Entry.dir)
              (((children_of m p).filter filePred).map (fun ne => (p ++ [ne.1], ne.2)))
            = [] from dirEntriesOf_files_nil p (children_of m p)]
        rw [List.pairwise_append]
        refine ⟨ha1, by simp, ?_⟩
        intro a ha b hb
        simp only [List.mem_singleton] at hb
        subst hb
        exact ha2 a ha p (List.mem_cons_self p queue)
      · intro pe hpe x hx
        rw [dirEntriesOf, List.filter_append] at hpe
        rw [List.mem_append] at hpe
        rw [List.mem_append] at hx
        have hxlen : p.length ≤ x.length := by
          rcases hx with hx | hx
          · exact hq1head x hx
          · rw [hlen x hx]; omega
        rcases hpe with hpe | hpe
        · have h1 : pe.1.length ≤ p.length :=
            ha2 pe hpe p (List.mem_cons_self p queue)
          omega
        · rw [show List.filter (fun pe => pe.2 == Entry.dir)
                ((p, Entry.dir)
                  :: ((children_of m p).filter filePred).map (fun ne => (p ++ [ne.1], ne.2)))
              = [(p, Entry.dir)]
            from by
              rw [List.filter_cons]
              simp only [show ((Entry.dir == Entry.dir) = true) from rfl, if_true]
              rw [show List.filter (fun pe => pe.2 == Entry.dir)
                    (((children_of m p).filter filePred).map (fun ne => (p ++ [ne.1], ne.2)))
                  = [] from dirEntriesOf_files_nil p (children_of m p)]] at hpe
          simp only [List.mem_singleton] at hpe
          subst hpe
          exact hxlen

/-- Claim C8: `_download_directory` materializes directories in breadth-first
order through an explicit work queue (`dir_queue`, seeded with the root,
popped at the front, children appended at the tail — see the definition of
`download_directory`): in any completed run the created directories appear in
non-decreasing depth order, so all directories at depth N are processed (and
their children enqueued) before any directory at depth N + 1 is processed. -/
theorem download_bfs_depth_monotone (m : List (FPath × Entry)) (fuel : Nat)
    (res : List (FPath × Entry))
    (h : download_directory m fuel [[]] [] = some res) :
    List.Pairwise (fun a b : FPath × Entry => a.1.length ≤ b.1.length)
      (dirEntriesOf res) := by
  refine download_bfs_order_aux m fuel [[]] [] res ?_ ?_ ?_ ?_ h
  · simp
  · intro a ha b hb
    simp only [List.mem_singleton] at ha hb
    subst ha
    subst hb
    simp
  · simp [dirEntriesOf]
  · simp [dirEntriesOf]

/-- Witness for claim C8: the breadth-first download of the sample tree's
store materializes `[]`, then `a`, then `a/b`, in depth order. -/
theorem download_bfs_depth_monotone_witness :
    List.Pairwise (fun a b : FPath × Entry => a.1.length ≤ b.1.length)
      (dirEntriesOf
        [([], Entry.dir), (["a"], Entry.dir), (["a", "x.txt"], Entry.file [104, 105]),
         (["a", "b"], Entry.dir), (["a", "b", "y.txt"], Entry.file [119, 120])]) :=
  download_bfs_depth_monotone (upload_data sampleTree) 3 _ (by decide)
